import Mathlib

/-!
Verification of the edoping point-defect toolkit: a shallow embedding of the
formation-energy builder (`defect.py`), the data-file readers
(`defect.py`, `dft.py`) and the CLI-level solver wiring (`cli.py`),
together with spec-level models of the Fermi solver components whose
source module (`fermi.py`) is not part of the packaged sources.
Numeric columns are embedded as exact rationals; the density-of-states
carrier model uses real numbers for the Fermi-Dirac occupation.
-/

/-- Embeds `np.linspace(emin, emax, npts)` from `formation`
(`defect.py`, line 287): `npts` evenly spaced samples, step
`(emax - emin) / (npts - 1)`.  In exact rational arithmetic the final
sample equals `emax`, as `np.linspace` guarantees. -/
def linspace (emin emax : ℚ) (npts : ℕ) : List ℚ :=
  (List.range npts).map fun (i : ℕ) =>
    emin + (emax - emin) * (i : ℚ) / ((npts : ℚ) - 1)

/-- Embeds the row `Eform = q * miu + E0q` of `formation`
(`defect.py`, line 290) at one Fermi-level sample `x`: the formation-energy
line of each charge state evaluated at `x`. -/
def Eform_row (E0q : List ℚ) (qs : List ℤ) (x : ℚ) : List ℚ :=
  List.zipWith (fun (q : ℤ) (E0 : ℚ) => (q : ℚ) * x + E0) qs E0q

/-- Embeds `np.min` over a (nonempty) row, as used for
`Efmin = Eform.min(axis=-1)` in `formation` (`defect.py`, line 291).
The empty-row value 0 is never used: `np.min` of an empty row raises. -/
def listMin : List ℚ → ℚ
  | [] => 0
  | x :: xs => xs.foldl min x

/-- Embeds the transition level `E_t = -(eq[i] - eq[i-1]) / (tq[i] - tq[i-1])`
printed by `formation` (`defect.py`, line 302). -/
def E_t (q1 : ℤ) (e1 : ℚ) (q2 : ℤ) (e2 : ℚ) : ℚ :=
  -(e2 - e1) / ((q2 : ℚ) - (q1 : ℚ))

/-- Embeds the defect energy
`E_d = (tq[i] * eq[i-1] - tq[i-1] * eq[i]) / (tq[i] - tq[i-1])`
printed by `formation` (`defect.py`, line 303). -/
def E_d (q1 : ℤ) (e1 : ℚ) (q2 : ℤ) (e2 : ℚ) : ℚ :=
  ((q2 : ℚ) * e1 - (q1 : ℚ) * e2) / ((q2 : ℚ) - (q1 : ℚ))

/-- Error raised by the self-consistent solver when the charge-neutrality
residual does not change sign on the search interval. -/
inductive FermiError where
  | noBracket
  deriving DecidableEq, Repr

/-- Modelled from the spec: the generic bracketing bisection loop of the
self-consistent Fermi solver (spec section 4.3 and design note on the
reusable root-finder; the module `fermi.py` that implements it is not in
the packaged sources).  `n` halving steps starting from `[a, b]`, keeping
the half-interval on which the residual changes sign, returning the final
midpoint. -/
def bisect (R : ℚ → ℚ) : ℕ → ℚ → ℚ → ℚ
  | 0, a, b => (a + b) / 2
  | n + 1, a, b =>
    if R a * R ((a + b) / 2) ≤ 0 then bisect R n a ((a + b) / 2)
    else bisect R n ((a + b) / 2) b

/-- Modelled from the spec: the solver entry of `scfermi` (spec section
4.3; `fermi.py` is not in the packaged sources).  It requires the
charge-neutrality residual `R` to take opposite signs at `Emin` and
`Emax`; when `R Emin * R Emax > 0` (same sign) it fails with
`NoBracketError`, otherwise it runs the bracketing bisection. -/
def scsolve (R : ℚ → ℚ) (Emin Emax : ℚ) (iters : ℕ) : Except FermiError ℚ :=
  if 0 < R Emin * R Emax then .error .noBracket
  else .ok (bisect R iters Emin Emax)

/-- Modelled from the spec and the caller: `scfermi`'s two output modes
(spec section 4.3; `fermi.py` is not in the packaged sources; the caller
`cli.py`, lines 178-190, documents and unpacks the returned tuples:
quiet mode `EF, Ne` and detail mode `n_p, EF, Ne`).  `fnp Ef` is the net
number of electrons in the cell and `fne Ef` the equilibrium carrier
concentration at the solved Fermi level, both abstracted as functions of
the solution. -/
def scfermi (R fnp fne : ℚ → ℚ) (Emin Emax : ℚ) (iters : ℕ)
    (detail : Bool) : Except FermiError (List ℚ) :=
  match scsolve R Emin Emax iters with
  | .error e => .error e
  | .ok Ef => .ok (if detail then [fnp Ef, Ef, fne Ef] else [Ef, fne Ef])

/-- Embeds the in-place normalization `data[:,4:] /= data[:,3:4]` of the
`equi` subcommand (`cli.py`, line 243): in every row the columns after
index 3 are divided by the column at index 3 (the total concentration);
columns 0-3 are untouched. -/
def equ_ratio_rows (data : List (List ℚ)) : List (List ℚ) :=
  data.map fun row => row.take 4 ++ (row.drop 4).map fun x => x / row.getD 3 0

/-- Embeds the output selection of the `equi` subcommand (`cli.py`,
lines 242-243): the scanned table is ratio-normalized exactly when both
the detail flag and the normalization flag are set, and passed through
raw otherwise. -/
def equi_output (detail rnorm : Bool) (data : List (List ℚ)) : List (List ℚ) :=
  if detail && rnorm then equ_ratio_rows data else data

/-- One whitespace-separated token of a data-file header line: either a
non-numeric word (its text is irrelevant to the readers, which only apply
`float` to the trailing tokens) or a numeric token with its value. -/
inductive HTok where
  | word
  | num (q : ℚ)
  deriving DecidableEq, Repr

/-- A whitespace-separated numeric data file as written by `np.savetxt`
and read back by `np.loadtxt`: one header line (tokenized, including the
leading comment mark) followed by rows of numbers. -/
structure DataFile where
  header : List HTok
  rows : List (List ℚ)
  deriving DecidableEq, Repr

/-- Embeds the rounding performed by the `%.4f` / `{:>12.4f}` formats
used by `formation` when writing the data file (`defect.py`,
lines 309-311): the value is kept to four decimal places. -/
def round4 (x : ℚ) : ℚ := (round (x * 10000) : ℤ) / 10000

/-- Embeds the data file written by `formation` (`defect.py`,
lines 307-311): `np.savetxt(filedata, np.hstack([miu, Efmin, Eform]),
fmt=4dp, header=header)`.  The header holds the comment mark, the column
labels (one word per charge state plus three fixed words) and then the
two trailing numbers: the cell volume (written with four decimals) and
the default degeneracy `gx = 1`.  Every data row holds the Fermi-level
sample, the row minimum of the formation energies, then one formation
energy per charge state, each written with four decimals. -/
def formation_file (emin emax : ℚ) (npts : ℕ) (E0q : List ℚ) (qs : List ℤ)
    (volume : ℚ) : DataFile :=
  { header := List.replicate (3 + qs.length) HTok.word ++
      [HTok.num (round4 volume), HTok.num 1],
    rows := (linspace emin emax npts).map fun x =>
      round4 x :: round4 (listMin (Eform_row E0q qs x)) ::
        (Eform_row E0q qs x).map round4 }

/-- Embeds `read_formation` (`defect.py`, lines 316-335, default
`to_reduce=False` path): take the last two whitespace tokens of the
header line as `volume` and `gx` (a `float` call on a word fails), then
`np.loadtxt(usecols=(0,1,2), unpack=True)`, which needs a rectangular
numeric block of at least three columns and yields the first three
columns.  A failure of either step is `none`. -/
def read_formation (F : DataFile) :
    Option ((List ℚ × List ℚ × List ℚ) × ℚ × ℚ) :=
  match F.header.reverse with
  | HTok.num gx :: HTok.num vol :: _ =>
    if F.rows ≠ [] ∧ (∀ r ∈ F.rows, r.length = (F.rows.headD []).length) ∧
        3 ≤ (F.rows.headD []).length then
      some ((F.rows.map fun r => r.getD 0 0,
             F.rows.map fun r => r.getD 1 0,
             F.rows.map fun r => r.getD 2 0), vol, gx)
    else none
  | _ => none

/-- Failure modes of `read_H0` (`defect.py`, lines 338-354): the header
does not end in two numbers (the `float` calls fail), the numeric block
is ragged (`np.loadtxt` raises), indexing errors — `shape[-1]` on a
0-d array or the 2-d slice `data[:, :3]` on a 1-d array
(`IndexError`) — a 2-axis `np.pad` applied to a 1-d array
(`ValueError`), and the explicit
`RuntimeError('Charge and H0 columns must be included.')`. -/
inductive H0Err where
  | header
  | ragged
  | indexErr
  | valueErr
  | shape
  deriving DecidableEq, Repr

/-- The result of `np.loadtxt` with the default `ndmin=0`: size-one
axes are squeezed away, so a single value loads as a 0-d array, a
single row or a single column loads as a 1-d array, and only a block
with at least two rows and two columns stays 2-d. -/
inductive NpArray where
  | zeroD (x : ℚ)
  | oneD (v : List ℚ)
  | twoD (rows : List (List ℚ))
  deriving DecidableEq, Repr

/-- Embeds `np.loadtxt` on an already tokenized numeric block: a ragged
block raises (`none`); otherwise the mono-dimensional axes are squeezed
(`ndmin=0` default): one value gives a 0-d array, one row or one column
a 1-d array, anything else stays 2-d.  An empty block is the empty 1-d
array of shape `(0,)`. -/
def npLoadtxt (rows : List (List ℚ)) : Option NpArray :=
  if ∀ r ∈ rows, r.length = (rows.headD []).length then
    if rows.length = 0 then some (.oneD [])
    else if rows.length = 1 then
      if (rows.headD []).length = 1 then
        some (.zeroD ((rows.headD []).getD 0 0))
      else some (.oneD (rows.headD []))
    else if (rows.headD []).length = 1 then
      some (.oneD (rows.map fun r => r.getD 0 0))
    else some (.twoD rows)
  else none

/-- Embeds `data.shape[-1]`: the last axis length.  On a 0-d array the
shape tuple is empty and the index raises (`none`). -/
def npShapeLast : NpArray → Option ℕ
  | .zeroD _ => none
  | .oneD v => some v.length
  | .twoD rows => some (rows.headD []).length

/-- Embeds `np.pad(data, ((0, 0), (0, 1)), constant_values=gx)`: append
one constant column.  The 2-axis pad width raises a `ValueError` on an
array that is not 2-d (`none`). -/
def npPadCol (gx : ℚ) : NpArray → Option NpArray
  | .twoD rows => some (.twoD (rows.map fun r => r ++ [gx]))
  | _ => none

/-- Embeds `data[:, :3]`: keep the first three columns.  The 2-d index
raises an `IndexError` on an array that is not 2-d (`none`). -/
def npTake3 : NpArray → Option NpArray
  | .twoD rows => some (.twoD (rows.map fun r => r.take 3))
  | _ => none

/-- Embeds `read_H0` (`defect.py`, lines 338-354): read `volume` and
`gx` from the last two header tokens, load the numeric block with
`np.loadtxt` (squeezing mono-dimensional axes), then branch on
`data.shape[-1]`: 3 passes the array through unchanged, 2 pads a
constant `gx` column with `np.pad`, below 2 raises the `RuntimeError`,
anything above truncates to the first three columns with `data[:, :3]`.
Because of the squeeze, on a single-column block `shape[-1]` is the row
count, so such a block hits these branches by its number of rows.
Returns the array and the volume. -/
def read_H0 (F : DataFile) : Except H0Err (NpArray × ℚ) :=
  match F.header.reverse with
  | HTok.num gx :: HTok.num vol :: _ =>
    match npLoadtxt F.rows with
    | none => .error .ragged
    | some data =>
      match npShapeLast data with
      | none => .error .indexErr
      | some n =>
        if n = 3 then .ok (data, vol)
        else if n = 2 then
          match npPadCol gx data with
          | some d2 => .ok (d2, vol)
          | none => .error .valueErr
        else if n < 2 then .error .shape
        else
          match npTake3 data with
          | some d2 => .ok (d2, vol)
          | none => .error .indexErr
  | _ => .error .header

/-- One raw line of a DOS file (`DOSCAR` or `tdos.dat`).  `isComment`
records whether the stripped line starts with a comment mark; `toks`
models the whitespace-separated tokens of the line, each carried as its
numeric value (the value of a non-numeric token is irrelevant: the
readers only count such tokens, never parse them). -/
structure RawLine where
  isComment : Bool
  toks : List ℚ
  deriving DecidableEq, Repr

/-- Embeds `_read_dos` (`dft.py`, lines 553-564): walk the selected
lines, skip comment lines, and for every other line parse the first
token minus `fermi` into the energy column and the second token into
the DOS column.  A data line with fewer than two tokens makes the
Python loop raise (`none` here). -/
def _read_dos (ls : List RawLine) (fermi : ℚ) : Option (List ℚ × List ℚ) :=
  match ls with
  | [] => some ([], [])
  | l :: rest =>
    if l.isComment then _read_dos rest fermi
    else
      match l.toks with
      | e :: d :: _ =>
        match _read_dos rest fermi with
        | some (es, ds) => some ((e - fermi) :: es, d :: ds)
        | none => none
      | _ => none

/-- Embeds the `DOSCAR` auto-detection of `read_dos` (`dft.py`,
lines 539-541): the token counts of the first six lines must satisfy
`num_i[0] == 4`, `num_i[2] == 1` and `num_i[3] == 1`.  The Python code
indexes `num_i[3]`, so files of fewer than four lines raise before the
check; that case is kept out of this predicate and handled by
`read_dos` itself. -/
def isDOSCARb (lines : List RawLine) : Bool :=
  match lines.get? 0, lines.get? 2, lines.get? 3 with
  | some l0, some l2, some l3 =>
    l0.toks.length == 4 && l2.toks.length == 1 && l3.toks.length == 1
  | _, _, _ => false

/-- Embeds `read_dos` (`dft.py`, lines 528-551): fewer than four lines
raise at the detection indexing (`none`); in `DOSCAR` mode
`NEDOS = int(data[5].strip().split()[2])` (an `int` call on a
non-integer token fails) and exactly the `NEDOS` lines after the
six-line header are selected; otherwise every line is selected; the
selection is handed to `_read_dos` with the supplied Fermi shift. -/
def read_dos (lines : List RawLine) (efermi : ℚ) :
    Option (List ℚ × List ℚ) :=
  match lines.get? 3 with
  | none => none
  | some _ =>
    if isDOSCARb lines then
      match lines.get? 5 with
      | some l5 =>
        match l5.toks.get? 2 with
        | some q =>
          if q.den = 1 then
            _read_dos ((lines.drop 6).take q.num.toNat) efermi
          else none
        | none => none
      | none => none
    else _read_dos lines efermi

/-- Modelled from the spec: the Boltzmann constant of the process-wide
physical constants (spec section 3; the module holding the constant is
not in the packaged sources), in eV per kelvin. -/
noncomputable def kB : ℝ := 8.617333262e-5

/-- Modelled from the spec: the fixed unit conversion from a count per
cubic angstrom to a count per cubic centimetre (spec section 4.1). -/
noncomputable def convA3cm3 : ℝ := 1e24

/-- Modelled from the spec: the Fermi-Dirac occupation
`f(x, T) = 1 / (1 + exp(x / kT))` (spec section 4.1; `fermi.py` is not
in the packaged sources). -/
noncomputable def fermiDirac (kT x : ℝ) : ℝ := 1 / (1 + Real.exp (x / kT))

/-- Modelled from the spec: trapezoid integration over a tabulated grid
of `(abscissa, value)` points (spec section 4.1). -/
noncomputable def trapz : List (ℝ × ℝ) → ℝ
  | [] => 0
  | [_] => 0
  | p :: q :: rest => (q.1 - p.1) * (p.2 + q.2) / 2 + trapz (q :: rest)

/-- Modelled from the spec: the electron concentration of
`carrier_concentrations` (spec section 4.1; `fermi.py` is not in the
packaged sources): integrate `dos(E) * f(E - Ef, T)` by trapezoid over
the tabulated energies at and above the conduction onset `Ec`, then
convert to cm^-3 by dividing by the cell volume with the fixed unit
constant. -/
noncomputable def n_electron (dos : List (ℝ × ℝ)) (Ec T volume Ef : ℝ) : ℝ :=
  convA3cm3 / volume *
    trapz ((dos.filter fun p => decide (Ec ≤ p.1)).map
      fun p => (p.1, p.2 * fermiDirac (kB * T) (p.1 - Ef)))

/-- Modelled from the spec: the hole concentration of
`carrier_concentrations` (spec section 4.1): integrate
`dos(E) * (1 - f(E - Ef, T))` by trapezoid over the tabulated energies
at and below the valence onset `Ev`, with the same volume conversion. -/
noncomputable def n_hole (dos : List (ℝ × ℝ)) (Ev T volume Ef : ℝ) : ℝ :=
  convA3cm3 / volume *
    trapz ((dos.filter fun p => decide (p.1 ≤ Ev)).map
      fun p => (p.1, p.2 * (1 - fermiDirac (kB * T) (p.1 - Ef))))

/-- The bisection iterates stay inside the initial bracket. -/
theorem bisect_mem (R : ℚ → ℚ) :
    ∀ (n : ℕ) (a b : ℚ), a ≤ b → a ≤ bisect R n a b ∧ bisect R n a b ≤ b := by
  intro n
  induction n with
  | zero =>
    intro a b hab
    simp only [bisect]
    constructor <;> linarith
  | succ n ih =>
    intro a b hab
    simp only [bisect]
    by_cases hc : R a * R ((a + b) / 2) ≤ 0
    · rw [if_pos hc]
      have h1 : a ≤ (a + b) / 2 := by linarith
      have h2 := ih a ((a + b) / 2) h1
      exact ⟨h2.1, by linarith [h2.2]⟩
    · rw [if_neg hc]
      have h1 : (a + b) / 2 ≤ b := by linarith
      have h2 := ih ((a + b) / 2) b h1
      exact ⟨by linarith [h2.1], h2.2⟩

/-- C2: when the charge-neutrality residual has the same sign at both ends
of the search interval, the solver fails with `NoBracketError`; when the
signs are opposite it proceeds with bracketing root-finding and returns a
Fermi level inside `[Emin, Emax]`. -/
theorem scfermi_bracket_check (R : ℚ → ℚ) (Emin Emax : ℚ) (n : ℕ) :
    (0 < R Emin * R Emax →
      scsolve R Emin Emax n = .error .noBracket) ∧
    (R Emin * R Emax < 0 → Emin ≤ Emax →
      ∃ x, scsolve R Emin Emax n = .ok x ∧ Emin ≤ x ∧ x ≤ Emax) := by
  constructor
  · intro h
    simp [scsolve, h]
  · intro h hle
    have hnot : ¬ 0 < R Emin * R Emax := by linarith
    have hmem := bisect_mem R n Emin Emax hle
    exact ⟨bisect R n Emin Emax, by simp [scsolve, hnot], hmem.1, hmem.2⟩

/-- Witness for C2: a residual of constant sign on `[0, 1]` is rejected,
while a sign-changing residual yields a bracketed Fermi level. -/
theorem scfermi_bracket_check_witness :
    scsolve (fun x => x + 1) 0 1 3 = .error .noBracket ∧
    ∃ x, scsolve (fun x => x - 1/2) 0 1 3 = .ok x ∧ 0 ≤ x ∧ x ≤ 1 :=
  ⟨(scfermi_bracket_check (fun x => x + 1) 0 1 3).1 (by norm_num),
   (scfermi_bracket_check (fun x => x - 1/2) 0 1 3).2 (by norm_num) (by norm_num)⟩

/-- C4 (amended): on a successful solve, quiet mode returns exactly the
pair of the Fermi level and the carrier concentration, and detail mode
returns the same pair with the net electron number prepended. -/
theorem scfermi_output_modes (R fnp fne : ℚ → ℚ) (Emin Emax : ℚ) (n : ℕ)
    (Ef : ℚ) (h : scsolve R Emin Emax n = .ok Ef) :
    scfermi R fnp fne Emin Emax n false = .ok [Ef, fne Ef] ∧
    scfermi R fnp fne Emin Emax n true = .ok (fnp Ef :: [Ef, fne Ef]) := by
  simp [scfermi, h]

/-- Witness for C4: a concrete solve in which quiet mode yields the pair
and detail mode yields the triple with the prepended electron count. -/
theorem scfermi_output_modes_witness :
    scfermi (fun x => x - 1/2) (fun _ => 7) (fun x => x + 1) 0 1 0 false =
      .ok [1/2, 3/2] ∧
    scfermi (fun x => x - 1/2) (fun _ => 7) (fun x => x + 1) 0 1 0 true =
      .ok (7 :: [1/2, 3/2]) := by
  have h : scsolve (fun x : ℚ => x - 1/2) 0 1 0 = .ok (1/2) := by
    norm_num [scsolve, bisect]
  have h2 := scfermi_output_modes (fun x => x - 1/2) (fun _ => 7)
    (fun x => x + 1) 0 1 0 (1/2) h
  norm_num at h2
  exact h2

/-- Counterexample for C4 as stated: at a concrete input the detail
output is not the quiet pair extended by per-defect columns — it does
not extend the quiet pair at all, because the net electron number is
prepended in front of the Fermi level. -/
theorem scfermi_detail_not_extension :
    scfermi (fun x => x - 1/2) (fun _ => 7) (fun x => x + 1) 0 1 0 false =
      .ok [1/2, 3/2] ∧
    ¬ ∃ extra : List ℚ,
      scfermi (fun x => x - 1/2) (fun _ => 7) (fun x => x + 1) 0 1 0 true =
        .ok ([1/2, 3/2] ++ extra) := by
  constructor
  · norm_num [scfermi, scsolve, bisect]
  · rintro ⟨extra, hext⟩
    norm_num [scfermi, scsolve, bisect] at hext

/-- C10: the printed transition level is exactly the Fermi level at which
the two formation-energy lines intersect, and the printed defect energy
is the common value of the two lines there. -/
theorem transition_level_intersection (q1 q2 : ℤ) (e1 e2 : ℚ) (h : q1 ≠ q2) :
    e1 + (q1 : ℚ) * E_t q1 e1 q2 e2 = E_d q1 e1 q2 e2 ∧
    e2 + (q2 : ℚ) * E_t q1 e1 q2 e2 = E_d q1 e1 q2 e2 ∧
    ∀ x : ℚ, e1 + (q1 : ℚ) * x = e2 + (q2 : ℚ) * x → x = E_t q1 e1 q2 e2 := by
  have hq : ((q2 : ℚ) - (q1 : ℚ)) ≠ 0 := by
    intro hc
    exact h (by exact_mod_cast (sub_eq_zero.mp hc).symm)
  refine ⟨?_, ?_, ?_⟩
  · field_simp [E_t, E_d]
    ring
  · field_simp [E_t, E_d]
    ring
  · intro x hx
    field_simp [E_t]
    nlinarith [hx]

/-- Witness for C10: the charge states `q = 0` at `E0 = 2` and `q = +1`
at `E0 = 1` cross at `E_t = 1` with common energy `E_d = 2`. -/
theorem transition_level_intersection_witness :
    (2 : ℚ) + ((0 : ℤ) : ℚ) * E_t 0 2 1 1 = E_d 0 2 1 1 ∧
    (1 : ℚ) + ((1 : ℤ) : ℚ) * E_t 0 2 1 1 = E_d 0 2 1 1 :=
  ⟨(transition_level_intersection 0 1 2 1 (by decide)).1,
   (transition_level_intersection 0 1 2 1 (by decide)).2.1⟩

/-- C8: the multi-Fermi scan output supports raw and ratio-normalized
modes: raw mode passes the table through unchanged; ratio mode divides
every column after the total-concentration column (index 3) by the
total-concentration column, leaving the Fermi-level, effective-charge,
effective-energy and total columns unchanged. -/
theorem equi_ratio_normalization (data : List (List ℚ)) (i : ℕ)
    (row : List ℚ) (h : data[i]? = some row) (h4 : 4 ≤ row.length) :
    (∀ detail rnorm : Bool, detail = false ∨ rnorm = false →
      equi_output detail rnorm data = data) ∧
    ∃ nrow, (equi_output true true data)[i]? = some nrow ∧
      nrow.length = row.length ∧
      (∀ j, j < 4 → nrow[j]? = row[j]?) ∧
      (∀ j, 4 ≤ j → nrow[j]? = row[j]?.map fun x => x / row.getD 3 0) := by
  have htk : (List.take 4 row).length = 4 := by
    simp only [List.length_take]
    omega
  constructor
  · intro detail rnorm hdr
    rcases hdr with hd | hr
    · simp [equi_output, hd]
    · simp [equi_output, hr]
  · refine ⟨row.take 4 ++ (row.drop 4).map fun x => x / row.getD 3 0,
      ?_, ?_, ?_, ?_⟩
    · have hmap : equi_output true true data =
          data.map (fun r => r.take 4 ++ (r.drop 4).map fun x => x / r.getD 3 0) :=
        rfl
      rw [hmap, List.getElem?_map, h]
      rfl
    · simp only [List.length_append, List.length_take, List.length_map,
        List.length_drop]
      omega
    · intro j hj
      rw [List.getElem?_append_left (by omega : j < (List.take 4 row).length)]
      exact List.getElem?_take_of_lt hj
    · intro j hj
      rw [List.getElem?_append_right (by omega : (List.take 4 row).length ≤ j),
        htk, List.getElem?_map, List.getElem?_drop]
      have hidx : 4 + (j - 4) = j := by omega
      rw [hidx]

/-- Witness for C8: a one-row table whose trailing concentration columns
are divided by the total while the first four entries survive. -/
theorem equi_ratio_normalization_witness :
    ∃ nrow, (equi_output true true [[0, 1, 2, 10, 5, 20]])[0]? = some nrow ∧
      nrow.length = ([(0 : ℚ), 1, 2, 10, 5, 20] : List ℚ).length ∧
      (∀ j, j < 4 → nrow[j]? = ([(0 : ℚ), 1, 2, 10, 5, 20] : List ℚ)[j]?) ∧
      (∀ j, 4 ≤ j → nrow[j]? =
        (([(0 : ℚ), 1, 2, 10, 5, 20] : List ℚ)[j]?).map
          fun x => x / ([(0 : ℚ), 1, 2, 10, 5, 20] : List ℚ).getD 3 0) :=
  (equi_ratio_normalization [[0, 1, 2, 10, 5, 20]] 0 [0, 1, 2, 10, 5, 20]
    rfl (by decide)).2

/-- C9 (amended): on a data file whose numeric block is a rectangular
table with at least two rows and `n` columns, `read_H0` returns the
(2-d) table unchanged for exactly 3 columns, pads a constant `gx` third
column for exactly 2 columns, and truncates to the first 3 columns for
more than 3 columns; a single-column block is squeezed by `np.loadtxt`
to one dimension, so `shape[-1]` is the row count: with exactly 3 rows
the squeezed vector is returned unchanged, with exactly 2 rows `np.pad`
raises a `ValueError`, and with more than 3 rows the slice
`data[:, :3]` raises an `IndexError` — the `RuntimeError` is never
reached on such tables. -/
theorem read_H0_branches (ws : List HTok) (vol gx : ℚ)
    (rows : List (List ℚ)) (n : ℕ)
    (h2r : 2 ≤ rows.length) (hrect : ∀ r ∈ rows, r.length = n) :
    (n = 3 → read_H0 ⟨ws ++ [HTok.num vol, HTok.num gx], rows⟩ =
      .ok (.twoD rows, vol)) ∧
    (n = 2 → read_H0 ⟨ws ++ [HTok.num vol, HTok.num gx], rows⟩ =
      .ok (.twoD (rows.map fun r => r ++ [gx]), vol)) ∧
    (3 < n → read_H0 ⟨ws ++ [HTok.num vol, HTok.num gx], rows⟩ =
      .ok (.twoD (rows.map fun r => r.take 3), vol)) ∧
    (n = 1 →
      (rows.length = 3 → read_H0 ⟨ws ++ [HTok.num vol, HTok.num gx], rows⟩ =
        .ok (.oneD (rows.map fun r => r.getD 0 0), vol)) ∧
      (rows.length = 2 → read_H0 ⟨ws ++ [HTok.num vol, HTok.num gx], rows⟩ =
        .error .valueErr) ∧
      (3 < rows.length → read_H0 ⟨ws ++ [HTok.num vol, HTok.num gx], rows⟩ =
        .error .indexErr)) := by
  rcases rows with _ | ⟨r0, _ | ⟨r1, rest⟩⟩
  · simp at h2r
  · simp at h2r
  · have hrev : (ws ++ [HTok.num vol, HTok.num gx]).reverse =
        HTok.num gx :: HTok.num vol :: ws.reverse := by
      simp
    have hlen : ((r0 :: r1 :: rest : List (List ℚ)).headD []).length = n :=
      hrect r0 (List.mem_cons_self r0 (r1 :: rest))
    have hrectc : ∀ r ∈ (r0 :: r1 :: rest : List (List ℚ)),
        r.length = ((r0 :: r1 :: rest : List (List ℚ)).headD []).length := by
      intro r hr
      rw [hlen]
      exact hrect r hr
    refine ⟨?_, ?_, ?_, ?_⟩ <;> intro hn
    · have hload : npLoadtxt (r0 :: r1 :: rest) =
          some (.twoD (r0 :: r1 :: rest)) := by
        simp only [npLoadtxt]
        rw [if_pos hrectc, if_neg (by simp), if_neg (by simp),
          if_neg (by rw [hlen]; omega)]
      simp only [read_H0, hrev, hload, npShapeLast, hlen]
      rw [if_pos hn]
    · have hload : npLoadtxt (r0 :: r1 :: rest) =
          some (.twoD (r0 :: r1 :: rest)) := by
        simp only [npLoadtxt]
        rw [if_pos hrectc, if_neg (by simp), if_neg (by simp),
          if_neg (by rw [hlen]; omega)]
      simp only [read_H0, hrev, hload, npShapeLast, hlen, npPadCol]
      rw [if_neg (by omega), if_pos hn]
    · have hload : npLoadtxt (r0 :: r1 :: rest) =
          some (.twoD (r0 :: r1 :: rest)) := by
        simp only [npLoadtxt]
        rw [if_pos hrectc, if_neg (by simp), if_neg (by simp),
          if_neg (by rw [hlen]; omega)]
      simp only [read_H0, hrev, hload, npShapeLast, hlen, npTake3]
      rw [if_neg (by omega), if_neg (by omega), if_neg (by omega)]
    · have hload : npLoadtxt (r0 :: r1 :: rest) =
          some (.oneD ((r0 :: r1 :: rest).map fun r => r.getD 0 0)) := by
        simp only [npLoadtxt]
        rw [if_pos hrectc, if_neg (by simp), if_neg (by simp),
          if_pos (by rw [hlen, hn])]
      refine ⟨?_, ?_, ?_⟩ <;> intro hr <;>
        simp only [List.length_cons] at hr <;>
        simp only [read_H0, hrev, hload, npShapeLast, List.length_map,
          List.length_cons, npPadCol, npTake3]
      · rw [if_pos (by omega)]
      · rw [if_neg (by omega), if_pos (by omega)]
      · rw [if_neg (by omega), if_neg (by omega), if_neg (by omega)]

/-- Counterexample for C9 as stated: a three-row single-column block is
squeezed to one dimension by `np.loadtxt`, so `shape[-1]` is 3 and
`read_H0` returns it successfully — the claimed
`RuntimeError('Charge and H0 columns must be included.')` does not
fire on this fewer-than-two-column table. -/
theorem read_H0_one_column_success :
    read_H0 ⟨[HTok.word, HTok.num 7, HTok.num 2], [[1], [2], [3]]⟩ =
      .ok (.oneD [1, 2, 3], 7) ∧
    read_H0 ⟨[HTok.word, HTok.num 7, HTok.num 2], [[1], [2], [3]]⟩ ≠
      .error .shape := by
  have h1 : read_H0 ⟨[HTok.word, HTok.num 7, HTok.num 2], [[1], [2], [3]]⟩ =
      .ok (.oneD [1, 2, 3], 7) := rfl
  refine ⟨h1, ?_⟩
  intro hc
  rw [h1] at hc
  exact Except.noConfusion hc

/-- Witness for C9: a two-row two-column table stays 2-d and is padded
with the header's `gx` value as a constant third column. -/
theorem read_H0_branches_witness :
    read_H0 ⟨[HTok.word] ++ [HTok.num 7, HTok.num 2], [[1, 4], [2, 5]]⟩ =
      .ok (.twoD [[1, 4, 2], [2, 5, 2]], 7) := by
  have h := (read_H0_branches [HTok.word] 7 2 [[1, 4], [2, 5]] 2
    (by decide) (by decide)).2.1 rfl
  simpa using h

/-- Index formula for the Fermi-level grid. -/
theorem linspace_getD (emin emax : ℚ) (npts i : ℕ) (h : i < npts) :
    (linspace emin emax npts).getD i 0 =
      emin + (emax - emin) * i / ((npts : ℚ) - 1) := by
  rw [linspace, List.getD_eq_getElem?_getD, List.getElem?_map,
    List.getElem?_range h]
  rfl

/-- Folding `min` never exceeds the initial accumulator. -/
theorem foldl_min_le_init (xs : List ℚ) : ∀ a : ℚ, xs.foldl min a ≤ a := by
  induction xs with
  | nil => intro a; simp
  | cons y ys ih =>
    intro a
    simp only [List.foldl_cons]
    exact le_trans (ih (min a y)) (min_le_left a y)

/-- Folding `min` bounds every list element from below. -/
theorem foldl_min_le_mem (xs : List ℚ) :
    ∀ (a b : ℚ), b ∈ xs → xs.foldl min a ≤ b := by
  induction xs with
  | nil => intro a b hb; simp at hb
  | cons y ys ih =>
    intro a b hb
    simp only [List.foldl_cons]
    rcases List.mem_cons.mp hb with rfl | hb2
    · exact le_trans (foldl_min_le_init ys (min a b)) (min_le_right a b)
    · exact ih (min a y) b hb2

/-- Folding `min` lands on the accumulator or on a list element. -/
theorem foldl_min_mem (xs : List ℚ) : ∀ a : ℚ, xs.foldl min a ∈ a :: xs := by
  induction xs with
  | nil => intro a; simp
  | cons y ys ih =>
    intro a
    simp only [List.foldl_cons]
    rcases List.mem_cons.mp (ih (min a y)) with he | hm
    · rcases min_choice a y with h1 | h1 <;> rw [he, h1] <;> simp
    · exact List.mem_cons_of_mem a (List.mem_cons_of_mem y hm)

/-- The row minimum is a lower bound of the row. -/
theorem listMin_le_mem (l : List ℚ) (hl : l ≠ []) :
    ∀ a ∈ l, listMin l ≤ a := by
  cases l with
  | nil => exact absurd rfl hl
  | cons x xs =>
    intro a ha
    rcases List.mem_cons.mp ha with rfl | ha2
    · exact foldl_min_le_init xs a
    · exact foldl_min_le_mem xs x a ha2

/-- The row minimum is attained by a row element. -/
theorem listMin_mem (l : List ℚ) (hl : l ≠ []) : listMin l ∈ l := by
  cases l with
  | nil => exact absurd rfl hl
  | cons x xs => exact foldl_min_mem xs x

/-- C1: for `emin < emax` and at least two samples, the Fermi-level
column of the `formation` table is strictly increasing with uniform
spacing `(emax - emin) / (npts - 1)`, and at every Fermi level the
reported minimum formation energy is the pointwise minimum (greatest
lower bound attained) over the configured charge-state lines
`E0_q + q * Ef`. -/
theorem formation_envelope (emin emax : ℚ) (npts : ℕ)
    (E0q : List ℚ) (qs : List ℤ)
    (h1 : emin < emax) (h2 : 2 ≤ npts) (hne : qs ≠ [])
    (hlen : qs.length = E0q.length) :
    0 < (emax - emin) / ((npts : ℚ) - 1) ∧
    (∀ i, i + 1 < npts →
      (linspace emin emax npts).getD (i + 1) 0 =
        (linspace emin emax npts).getD i 0 +
          (emax - emin) / ((npts : ℚ) - 1)) ∧
    (∀ x : ℚ,
      (∀ j, j < qs.length →
        listMin (Eform_row E0q qs x) ≤ E0q.getD j 0 + (qs.getD j 0 : ℚ) * x) ∧
      (∃ j, j < qs.length ∧
        listMin (Eform_row E0q qs x) = E0q.getD j 0 + (qs.getD j 0 : ℚ) * x)) := by
  have hnpts : (1 : ℚ) ≤ (npts : ℚ) - 1 := by
    have : (2 : ℚ) ≤ (npts : ℚ) := by exact_mod_cast h2
    linarith
  have hstep : 0 < (emax - emin) / ((npts : ℚ) - 1) :=
    div_pos (by linarith) (by linarith)
  have hrow_len : ∀ x : ℚ, (Eform_row E0q qs x).length = qs.length := by
    intro x
    simp [Eform_row, List.length_zipWith, hlen]
  have hrow_ne : ∀ x : ℚ, Eform_row E0q qs x ≠ [] := by
    intro x hc
    apply hne
    have := hrow_len x
    rw [hc] at this
    exact List.eq_nil_of_length_eq_zero this.symm
  refine ⟨hstep, ?_, ?_⟩
  · intro i hi
    rw [linspace_getD emin emax npts (i + 1) hi,
      linspace_getD emin emax npts i (by omega)]
    push_cast
    field_simp
    ring
  · intro x
    constructor
    · intro j hj
      have hj2 : j < E0q.length := hlen ▸ hj
      have hq : qs[j]? = some (qs.getD j 0) := by
        rw [List.getD_eq_getElem?_getD, List.getElem?_eq_getElem hj]
        rfl
      have hE : E0q[j]? = some (E0q.getD j 0) := by
        rw [List.getD_eq_getElem?_getD, List.getElem?_eq_getElem hj2]
        rfl
      have hmem : ((qs.getD j 0 : ℚ) * x + E0q.getD j 0) ∈ Eform_row E0q qs x := by
        rw [List.mem_iff_getElem?]
        exact ⟨j, by
          rw [Eform_row, List.getElem?_zipWith_eq_some]
          exact ⟨qs.getD j 0, E0q.getD j 0, hq, hE, rfl⟩⟩
      have := listMin_le_mem (Eform_row E0q qs x) (hrow_ne x) _ hmem
      linarith [this]
    · have hmem := listMin_mem (Eform_row E0q qs x) (hrow_ne x)
      rw [List.mem_iff_getElem?] at hmem
      obtain ⟨j, hj⟩ := hmem
      rw [Eform_row, List.getElem?_zipWith_eq_some] at hj
      obtain ⟨q0, E0, hq, hE, hv⟩ := hj
      have hjlt : j < qs.length := by
        by_contra hge
        rw [List.getElem?_eq_none (by omega)] at hq
        exact Option.noConfusion hq
      have hjlt2 : j < E0q.length := hlen ▸ hjlt
      refine ⟨j, hjlt, ?_⟩
      have hq0 : qs.getD j 0 = q0 := by
        rw [List.getD_eq_getElem?_getD, hq]
        rfl
      have hE0 : E0q.getD j 0 = E0 := by
        rw [List.getD_eq_getElem?_getD, hE]
        rfl
      have hv2 : (q0 : ℚ) * x + E0 = listMin (Eform_row E0q qs x) := hv
      rw [hq0, hE0, ← hv2]
      ring

/-- Witness for C1: the two charge states `q = 0 (E0 = 2)` and
`q = +1 (E0 = 1)` on a grid over `[0, 1]`; at the sample `Ef = 1/2` the
envelope value is `3/2`, attained by the `q = +1` line. -/
theorem formation_envelope_witness :
    (∀ j, j < ([0, 1] : List ℤ).length →
      listMin (Eform_row [2, 1] [0, 1] (1/2)) ≤
        ([2, 1] : List ℚ).getD j 0 + ((([0, 1] : List ℤ).getD j 0 : ℤ) : ℚ) * (1/2)) ∧
    listMin (Eform_row [2, 1] [0, 1] (1/2)) = 3/2 ∧
    Eform_row [2, 1] [0, 1] (1/2) = [2, 3/2] :=
  ⟨((formation_envelope 0 1 3 [2, 1] [0, 1] (by norm_num) (by norm_num)
      (by decide) rfl).2.2 (1/2)).1,
   by norm_num [listMin, Eform_row, min_def],
   by norm_num [Eform_row]⟩

/-- C5: `formation` writes a data file whose header line ends in the two
numbers volume (as written, to four decimals) and the default `gx = 1`;
`read_formation` applied to that file returns exactly those two numbers
together with the first three columns of the data block. -/
theorem formation_roundtrip (emin emax volume : ℚ) (npts : ℕ)
    (E0q : List ℚ) (qs : List ℤ)
    (hlen : qs.length = E0q.length) (hq : qs ≠ []) (hn : npts ≠ 0) :
    (∃ ws, (formation_file emin emax npts E0q qs volume).header =
      ws ++ [HTok.num (round4 volume), HTok.num 1]) ∧
    read_formation (formation_file emin emax npts E0q qs volume) =
      some (((formation_file emin emax npts E0q qs volume).rows.map
               fun r => r.getD 0 0,
             (formation_file emin emax npts E0q qs volume).rows.map
               fun r => r.getD 1 0,
             (formation_file emin emax npts E0q qs volume).rows.map
               fun r => r.getD 2 0),
            round4 volume, 1) := by
  have hlsp : (linspace emin emax npts).length = npts := by
    simp [linspace]
  have hrows_len : ∀ r ∈ (formation_file emin emax npts E0q qs volume).rows,
      r.length = 2 + qs.length := by
    intro r hr
    simp only [formation_file, List.mem_map] at hr
    obtain ⟨x, _, rfl⟩ := hr
    simp only [List.length_cons, List.length_map, Eform_row,
      List.length_zipWith, hlen, min_self]
    omega
  have hne_rows : (formation_file emin emax npts E0q qs volume).rows ≠ [] := by
    intro hc
    have hlc := congrArg List.length hc
    simp only [formation_file, List.length_map, hlsp, List.length_nil] at hlc
    exact hn hlc
  obtain ⟨r0, rest, hr0⟩ : ∃ r0 rest,
      (formation_file emin emax npts E0q qs volume).rows = r0 :: rest := by
    cases hcase : (formation_file emin emax npts E0q qs volume).rows with
    | nil => exact absurd hcase hne_rows
    | cons a b => exact ⟨a, b, rfl⟩
  have hhead :
      (((formation_file emin emax npts E0q qs volume).rows.headD []).length) =
        2 + qs.length := by
    rw [hr0]
    exact hrows_len r0 (hr0 ▸ List.mem_cons_self r0 rest)
  have hql : 1 ≤ qs.length := List.length_pos.mpr hq
  have hcond : (formation_file emin emax npts E0q qs volume).rows ≠ [] ∧
      (∀ r ∈ (formation_file emin emax npts E0q qs volume).rows,
        r.length =
          ((formation_file emin emax npts E0q qs volume).rows.headD []).length) ∧
      3 ≤ ((formation_file emin emax npts E0q qs volume).rows.headD []).length := by
    refine ⟨hne_rows, ?_, ?_⟩
    · intro r hr
      rw [hrows_len r hr, hhead]
    · rw [hhead]
      omega
  have hrev : (formation_file emin emax npts E0q qs volume).header.reverse =
      HTok.num 1 :: HTok.num (round4 volume) ::
        (List.replicate (3 + qs.length) HTok.word).reverse := by
    simp [formation_file]
  refine ⟨⟨List.replicate (3 + qs.length) HTok.word, rfl⟩, ?_⟩
  simp only [read_formation, hrev]
  rw [if_pos hcond]

/-- Witness for C5: a concrete two-state table whose header numbers and
first three columns are recovered by `read_formation`. -/
theorem formation_roundtrip_witness :
    read_formation (formation_file 0 1 2 [2, 1] [0, 1] 5) =
      some (((formation_file 0 1 2 [2, 1] [0, 1] 5).rows.map
               fun r => r.getD 0 0,
             (formation_file 0 1 2 [2, 1] [0, 1] 5).rows.map
               fun r => r.getD 1 0,
             (formation_file 0 1 2 [2, 1] [0, 1] 5).rows.map
               fun r => r.getD 2 0),
            round4 5, 1) :=
  (formation_roundtrip 0 1 5 2 [2, 1] [0, 1] rfl (by decide) (by decide)).2

/-- Success of the line walker characterized: it succeeds exactly when
every non-comment line has at least two tokens, and then the energy
column is the shifted first token and the DOS column the second token of
the non-comment lines, in order. -/
theorem _read_dos_some_iff (ls : List RawLine) (fermi : ℚ) :
    ∀ E D : List ℚ,
      _read_dos ls fermi = some (E, D) ↔
        ((∀ l ∈ ls, l.isComment = false → 2 ≤ l.toks.length) ∧
         E = (ls.filter fun l => !l.isComment).map
               (fun l => l.toks.getD 0 0 - fermi) ∧
         D = (ls.filter fun l => !l.isComment).map
               fun l => l.toks.getD 1 0) := by
  induction ls with
  | nil =>
    intro E D
    simp [_read_dos]
  | cons l rest ih =>
    intro E D
    cases hcase : l.isComment with
    | true =>
      simp only [_read_dos, hcase, if_true]
      rw [ih E D]
      simp [List.filter_cons, hcase]
    | false =>
      cases htoks : l.toks with
      | nil =>
        simp only [_read_dos, hcase]
        rw [htoks]
        constructor
        · intro h
          exact Option.noConfusion h
        · rintro ⟨hall, -, -⟩
          have h2 := hall l (List.mem_cons_self l rest) hcase
          rw [htoks] at h2
          simp at h2
      | cons e ts =>
        cases ts with
        | nil =>
          simp only [_read_dos, hcase]
          rw [htoks]
          constructor
          · intro h
            exact Option.noConfusion h
          · rintro ⟨hall, -, -⟩
            have h2 := hall l (List.mem_cons_self l rest) hcase
            rw [htoks] at h2
            simp at h2
        | cons d tl =>
          simp only [_read_dos, hcase]
          rw [htoks]
          cases hrec : _read_dos rest fermi with
          | none =>
            constructor
            · intro h
              exact Option.noConfusion h
            · rintro ⟨hall, hE, hD⟩
              have hrest : _read_dos rest fermi =
                  some ((rest.filter fun l => !l.isComment).map
                          (fun l => l.toks.getD 0 0 - fermi),
                        (rest.filter fun l => !l.isComment).map
                          fun l => l.toks.getD 1 0) :=
                (ih _ _).mpr
                  ⟨fun l2 hl2 => hall l2 (List.mem_cons_of_mem l hl2), rfl, rfl⟩
              rw [hrec] at hrest
              exact Option.noConfusion hrest
          | some p =>
            obtain ⟨es, ds⟩ := p
            obtain ⟨hall_r, hes, hds⟩ := (ih es ds).mp hrec
            constructor
            · intro h
              injection h with h2
              have hE : E = (e - fermi) :: es := (congrArg Prod.fst h2).symm
              have hD : D = d :: ds := (congrArg Prod.snd h2).symm
              refine ⟨?_, ?_, ?_⟩
              · intro l2 hl2 hnc
                rcases List.mem_cons.mp hl2 with rfl | hl3
                · rw [htoks]
                  simp
                · exact hall_r l2 hl3 hnc
              · rw [hE, hes]
                simp [List.filter_cons, hcase, htoks]
              · rw [hD, hds]
                simp [List.filter_cons, hcase, htoks]
            · rintro ⟨hall, hE, hD⟩
              rw [hE, hD]
              simp only [List.filter_cons, hcase, Bool.not_false, if_true,
                List.map_cons, htoks]
              rw [← hes, ← hds]
              simp

/-- C6: whenever `read_dos` succeeds, in auto-detected `DOSCAR` mode it
has read exactly the `NEDOS` (header line 6, token 3, an integer) data
rows following the six-line header, and in plain mode all lines; in both
modes every returned energy is the first column of a non-comment row
minus the supplied Fermi energy and every returned DOS value is the
second column, in order. -/
theorem read_dos_spec (lines : List RawLine) (efermi : ℚ) (E D : List ℚ)
    (h : read_dos lines efermi = some (E, D)) :
    (isDOSCARb lines = true →
      ∃ l5 q, lines.get? 5 = some l5 ∧ l5.toks.get? 2 = some q ∧
        q.den = 1 ∧
        ((lines.drop 6).take q.num.toNat).length =
          min q.num.toNat (lines.length - 6) ∧
        (∀ l ∈ (lines.drop 6).take q.num.toNat,
          l.isComment = false → 2 ≤ l.toks.length) ∧
        E = (((lines.drop 6).take q.num.toNat).filter
              fun l => !l.isComment).map
              (fun l => l.toks.getD 0 0 - efermi) ∧
        D = (((lines.drop 6).take q.num.toNat).filter
              fun l => !l.isComment).map
              fun l => l.toks.getD 1 0) ∧
    (isDOSCARb lines = false →
      (∀ l ∈ lines, l.isComment = false → 2 ≤ l.toks.length) ∧
      E = (lines.filter fun l => !l.isComment).map
            (fun l => l.toks.getD 0 0 - efermi) ∧
      D = (lines.filter fun l => !l.isComment).map
            fun l => l.toks.getD 1 0) := by
  simp only [read_dos] at h
  split at h
  · exact Option.noConfusion h
  · by_cases hb : isDOSCARb lines = true
    · rw [if_pos hb] at h
      split at h
      · rename_i l5 heq5
        split at h
        · rename_i q heq2
          split at h
          · rename_i hden
            obtain ⟨hall, hE, hD⟩ := (_read_dos_some_iff _ efermi E D).mp h
            constructor
            · intro _
              exact ⟨l5, q, heq5, heq2, hden, by simp, hall, hE, hD⟩
            · intro hfalse
              rw [hb] at hfalse
              exact Bool.noConfusion hfalse
          · exact Option.noConfusion h
        · exact Option.noConfusion h
      · exact Option.noConfusion h
    · have hb2 : isDOSCARb lines = false := Bool.eq_false_iff.mpr hb
      rw [if_neg hb] at h
      obtain ⟨hall, hE, hD⟩ := (_read_dos_some_iff _ efermi E D).mp h
      constructor
      · intro htrue
        exact absurd htrue hb
      · intro _
        exact ⟨hall, hE, hD⟩

/-- Witness for C6: a plain four-line two-column file read at zero Fermi
shift, with columns recovered in order. -/
theorem read_dos_spec_witness :
    (∀ l ∈ [RawLine.mk false [1, 5], RawLine.mk false [2, 6],
            RawLine.mk false [3, 7], RawLine.mk false [4, 8]],
      l.isComment = false → 2 ≤ l.toks.length) ∧
    ([1, 2, 3, 4] : List ℚ) =
      (([RawLine.mk false [1, 5], RawLine.mk false [2, 6],
         RawLine.mk false [3, 7], RawLine.mk false [4, 8]].filter
          fun l => !l.isComment).map fun l => l.toks.getD 0 0 - 0) ∧
    ([5, 6, 7, 8] : List ℚ) =
      (([RawLine.mk false [1, 5], RawLine.mk false [2, 6],
         RawLine.mk false [3, 7], RawLine.mk false [4, 8]].filter
          fun l => !l.isComment).map fun l => l.toks.getD 1 0) :=
  (read_dos_spec
    [RawLine.mk false [1, 5], RawLine.mk false [2, 6],
     RawLine.mk false [3, 7], RawLine.mk false [4, 8]] 0
    [1, 2, 3, 4] [5, 6, 7, 8]
    (by norm_num [read_dos, _read_dos, isDOSCARb, List.get?])).2 (by decide)

/-- Counterexample for C7: a DOS table whose energy column is not
strictly increasing is read successfully — no `MalformedInputError`
exists and no ordering validation is performed. -/
theorem read_dos_no_ordering_error :
    read_dos [RawLine.mk false [1, 5], RawLine.mk false [0, 5],
              RawLine.mk false [2, 5], RawLine.mk false [3, 5]] 0 =
      some ([1, 0, 2, 3], [5, 5, 5, 5]) ∧
    ¬ List.Chain' (· < ·) ([1, 0, 2, 3] : List ℚ) := by
  constructor
  · norm_num [read_dos, _read_dos, isDOSCARb, List.get?]
  · norm_num [List.chain'_cons]

/-- C7 (amended): the readers perform no ordering or monotonicity
validation: `read_dos` succeeds on any plain-mode input whose
non-comment lines have at least two tokens, whatever the energy order,
returning the parsed columns as-is. -/
theorem read_dos_no_validation (lines : List RawLine) (efermi : ℚ)
    (h4 : 4 ≤ lines.length) (hd : isDOSCARb lines = false)
    (ht : ∀ l ∈ lines, l.isComment = false → 2 ≤ l.toks.length) :
    read_dos lines efermi =
      some ((lines.filter fun l => !l.isComment).map
              (fun l => l.toks.getD 0 0 - efermi),
            (lines.filter fun l => !l.isComment).map
              fun l => l.toks.getD 1 0) := by
  have h3lt : 3 < lines.length := by omega
  have h3 : lines.get? 3 = some (lines.get ⟨3, h3lt⟩) := List.get?_eq_get h3lt
  simp only [read_dos, h3]
  rw [if_neg (by simp [hd])]
  exact (_read_dos_some_iff lines efermi _ _).mpr ⟨ht, rfl, rfl⟩

/-- Witness for C7: a four-line file with shuffled (non-monotone)
energies is still read, returning its columns. -/
theorem read_dos_no_validation_witness :
    read_dos [RawLine.mk false [3, 1], RawLine.mk false [1, 1],
              RawLine.mk false [2, 1], RawLine.mk false [0, 1]] 0 =
      some ((([RawLine.mk false [3, 1], RawLine.mk false [1, 1],
               RawLine.mk false [2, 1], RawLine.mk false [0, 1]].filter
                fun l => !l.isComment).map fun l => l.toks.getD 0 0 - 0),
            (([RawLine.mk false [3, 1], RawLine.mk false [1, 1],
               RawLine.mk false [2, 1], RawLine.mk false [0, 1]].filter
                fun l => !l.isComment).map fun l => l.toks.getD 1 0)) :=
  read_dos_no_validation
    [RawLine.mk false [3, 1], RawLine.mk false [1, 1],
     RawLine.mk false [2, 1], RawLine.mk false [0, 1]] 0
    (by decide) (by decide) (by decide)

/-- The Boltzmann constant is positive. -/
theorem kB_pos : 0 < kB := by
  norm_num [kB]

/-- Fermi-Dirac occupation is antitone in its energy argument. -/
theorem fermiDirac_anti (kT : ℝ) (hkT : 0 < kT) (x y : ℝ) (hxy : x ≤ y) :
    fermiDirac kT y ≤ fermiDirac kT x := by
  unfold fermiDirac
  have h1 : 0 < 1 + Real.exp (x / kT) := by positivity
  apply one_div_le_one_div_of_le h1
  exact add_le_add_left (Real.exp_le_exp.mpr ((div_le_div_right hkT).mpr hxy)) 1

/-- Trapezoid integration is monotone in the integrand over a grid with
nondecreasing abscissas. -/
theorem trapz_mono (g1 g2 : ℝ × ℝ → ℝ) :
    ∀ l : List (ℝ × ℝ), l.Chain' (fun p q => p.1 ≤ q.1) →
      (∀ p ∈ l, g1 p ≤ g2 p) →
      trapz (l.map fun p => (p.1, g1 p)) ≤
        trapz (l.map fun p => (p.1, g2 p)) := by
  intro l
  induction l with
  | nil =>
    intro _ _
    simp [trapz]
  | cons p tail ih =>
    cases tail with
    | nil =>
      intro _ _
      simp [trapz]
    | cons q rest =>
      intro hs hg
      have hpq : p.1 ≤ q.1 := (List.chain'_cons.mp hs).1
      have htail := (List.chain'_cons.mp hs).2
      have ihq := ih htail fun r hr => hg r (List.mem_cons_of_mem p hr)
      have ha : g1 p + g1 q ≤ g2 p + g2 q :=
        add_le_add (hg p (List.mem_cons_self p (q :: rest)))
          (hg q (List.mem_cons_of_mem p (List.mem_cons_self q rest)))
      have hd : (0 : ℝ) ≤ q.1 - p.1 := by linarith
      have hterm : (q.1 - p.1) * (g1 p + g1 q) / 2 ≤
          (q.1 - p.1) * (g2 p + g2 q) / 2 := by
        have h2 := mul_le_mul_of_nonneg_left ha hd
        linarith
      calc trapz ((p :: q :: rest).map fun r => (r.1, g1 r))
          = (q.1 - p.1) * (g1 p + g1 q) / 2 +
              trapz ((q :: rest).map fun r => (r.1, g1 r)) := rfl
        _ ≤ (q.1 - p.1) * (g2 p + g2 q) / 2 +
              trapz ((q :: rest).map fun r => (r.1, g2 r)) := add_le_add hterm ihq
        _ = trapz ((p :: q :: rest).map fun r => (r.1, g2 r)) := rfl

/-- C3: for every valid DOS table (nondecreasing energies, nonnegative
DOS) and fixed temperature and volume, the electron concentration is
monotonically non-decreasing and the hole concentration monotonically
non-increasing as the Fermi level increases. -/
theorem carrier_concentrations_monotone (dos : List (ℝ × ℝ))
    (Ec Ev T volume Ef1 Ef2 : ℝ)
    (hs : dos.Pairwise fun p q => p.1 ≤ q.1)
    (hpos : ∀ p ∈ dos, 0 ≤ p.2)
    (hT : 0 < T) (hV : 0 < volume) (hEf : Ef1 ≤ Ef2) :
    n_electron dos Ec T volume Ef1 ≤ n_electron dos Ec T volume Ef2 ∧
    n_hole dos Ev T volume Ef2 ≤ n_hole dos Ev T volume Ef1 := by
  have hkT : 0 < kB * T := mul_pos kB_pos hT
  have hconv : 0 ≤ convA3cm3 / volume := by
    have hc : (0 : ℝ) < convA3cm3 := by norm_num [convA3cm3]
    positivity
  constructor
  · unfold n_electron
    apply mul_le_mul_of_nonneg_left _ hconv
    apply trapz_mono
    · exact (hs.filter fun p => decide (Ec ≤ p.1)).chain'
    · intro p hp
      have hd := hpos p (List.mem_of_mem_filter hp)
      have hf := fermiDirac_anti (kB * T) hkT (p.1 - Ef2) (p.1 - Ef1)
        (by linarith)
      exact mul_le_mul_of_nonneg_left hf hd
  · unfold n_hole
    apply mul_le_mul_of_nonneg_left _ hconv
    apply trapz_mono
    · exact (hs.filter fun p => decide (p.1 ≤ Ev)).chain'
    · intro p hp
      have hd := hpos p (List.mem_of_mem_filter hp)
      have hf := fermiDirac_anti (kB * T) hkT (p.1 - Ef2) (p.1 - Ef1)
        (by linarith)
      have : 1 - fermiDirac (kB * T) (p.1 - Ef2) ≤
          1 - fermiDirac (kB * T) (p.1 - Ef1) := by linarith
      exact mul_le_mul_of_nonneg_left this hd

/-- Witness for C3: a two-point unit DOS table at unit temperature and
volume, comparing Fermi levels 0 and 1. -/
theorem carrier_concentrations_monotone_witness :
    n_electron [(0, 1), (1, 1)] 0 1 1 0 ≤ n_electron [(0, 1), (1, 1)] 0 1 1 1 ∧
    n_hole [(0, 1), (1, 1)] 1 1 1 1 ≤ n_hole [(0, 1), (1, 1)] 1 1 1 0 :=
  carrier_concentrations_monotone [(0, 1), (1, 1)] 0 1 1 1 0 1
    (by norm_num [List.pairwise_cons]) (by norm_num)
    (by norm_num) (by norm_num) (by norm_num)
